import Mathlib

/-!
# Verification of `keylock` (werbenhu/keylock)

A shallow embedding of `keylock.go` in Lean 4, with theorems settling the
specification claims about it.

The Go program keeps, per manager (`KeyLock`):
  * `locks`: a `sync.Map` from string key to `*spinLock` (an `int32` cell,
    `0` = unlocked, `1` = locked);
  * `count`: an `int32` counter of currently held locks;
  * `maxSpins`: the backoff ceiling used by `Lock`'s waiting loop.

We model the registry as an association list `List (String × Bool)` (cell
value `true` = locked, i.e. the int32 value `1`), the counter as an `Int`
(so that the decrement in `Unlock` can be observed to drive it negative,
exactly as an `int32` would), and each exported operation as a function on
this state.  The embedding is the usual sequential linearization of the
atomic operations: each call's loads, compare-and-swaps and stores happen
atomically in program order.  `Lock`'s waiting loop, which in Go spins
until another thread releases the cell, is modelled as `Option`: in a
single-thread trace a `Lock` on an already-locked cell never returns,
which we represent by `none`.
-/

/-- State of one manager (`KeyLock` struct in `keylock.go`):
`locks` is the key → spin-lock-cell registry (`sync.Map`), `count` the
held-lock counter, `maxSpins` the backoff ceiling. -/
structure KeyLock where
  locks : List (String × Bool)
  count : Int
  maxSpins : Int
  deriving Repr, DecidableEq

namespace KeyLock

/-- `defaultMaxSpins = 16` in `keylock.go`. -/
def defaultMaxSpins : Int := 16

/-- `New()`: a fresh manager with an empty registry, zero counter and the
default `maxSpins`. -/
def new : KeyLock := { locks := [], count := 0, maxSpins := defaultMaxSpins }

/-- `WithMaxSpins(max)`: sets the backoff ceiling, returns the manager. -/
def withMaxSpins (m : Int) (s : KeyLock) : KeyLock := { s with maxSpins := m }

/-- Registry read: `sync.Map.Load(key)` — the cell's current value if the
key is present. -/
def findCell (k : String) : List (String × Bool) → Option Bool
  | [] => none
  | (k', b) :: rest => if k' = k then some b else findCell k rest

/-- Overwrite the cell of key `k` with value `b` (an atomic store to the
`*spinLock` the registry maps `k` to); appends a fresh cell when `k` is
absent. -/
def storeCell (k : String) (b : Bool) : List (String × Bool) → List (String × Bool)
  | [] => [(k, b)]
  | (k', b') :: rest =>
      if k' = k then (k, b) :: rest else (k', b') :: storeCell k b rest

/-- `kl.locks.LoadOrStore(key, new(spinLock))`: returns the current cell
value for `key` (installing a fresh unlocked cell when absent) and the
resulting state. -/
def loadOrStore (k : String) (s : KeyLock) : Bool × KeyLock :=
  match findCell k s.locks with
  | some v => (v, s)
  | none => (false, { s with locks := s.locks ++ [(k, false)] })

/-- `atomic.CompareAndSwapInt32(lock, 0, 1)` on the cell of key `k`:
succeeds exactly when the cell is present and unlocked, in which case the
cell becomes locked. -/
def casCell (k : String) (s : KeyLock) : Bool × KeyLock :=
  match findCell k s.locks with
  | some false => (true, { s with locks := storeCell k true s.locks })
  | _ => (false, s)

/-- `TryLock(key)`: `LoadOrStore`, then one CAS `0 → 1`; on success
increment `count` and return `true`, otherwise return `false`. -/
def tryLock (k : String) (s : KeyLock) : Bool × KeyLock :=
  let s1 := (loadOrStore k s).2
  match casCell k s1 with
  | (true, s2) => (true, { s2 with count := s2.count + 1 })
  | (false, s2) => (false, s2)

/-- `Lock(key)`: `LoadOrStore`, then CAS `0 → 1` in a backoff loop until it
succeeds, then increment `count`.  Sequentially linearized: when the cell
is already locked no other thread can release it within this call, so the
loop never exits — modelled as `none`. -/
def lock (k : String) (s : KeyLock) : Option KeyLock :=
  let s1 := (loadOrStore k s).2
  match casCell k s1 with
  | (true, s2) => some { s2 with count := s2.count + 1 }
  | (false, _) => none

/-- `Unlock(key)`: if the registry holds a cell for `key`, atomically
store `0` into it and decrement `count` — unconditionally, without
checking that the cell was locked; if the key is absent, do nothing. -/
def unlock (k : String) (s : KeyLock) : KeyLock :=
  match findCell k s.locks with
  | some _ => { s with locks := storeCell k false s.locks, count := s.count - 1 }
  | none => s

/-- `Size()`: the current counter value. -/
def size (s : KeyLock) : Int := s.count

/-- `Cleanup()`: ranges over the registry and deletes every entry whose
cell reads `0` (unlocked); entries reading `1` are kept.  `count` is not
touched. -/
def cleanup (s : KeyLock) : KeyLock :=
  { s with locks := s.locks.filter (fun p => p.2) }

/-- The number of registry cells currently in the locked state. -/
def lockedCount (s : KeyLock) : Int :=
  ((s.locks.filter (fun p => p.2)).length : Int)

/-!
## The backoff loop of `Lock`

```go
backoff := 1
for !atomic.CompareAndSwapInt32((*int32)(lock), 0, 1) {
    for range backoff {
        runtime.Gosched() // Yield processor
    }
    if backoff < int(kl.maxSpins) {
        backoff <<= 1 // Exponential backoff
    }
}
```

`backoffAfter m n` is the value of `backoff` at the start of failed
iteration `n` (0-indexed) of the waiting loop under ceiling `m`; during
iteration `n` the thread yields the processor exactly `backoffAfter m n`
times, and then doubles `backoff` precisely when it is still below `m`.
-/

/-- One trip of the failed-CAS loop body applied to the backoff counter:
`if backoff < maxSpins { backoff <<= 1 }`. -/
def backoffStep (m : Int) (b : Int) : Int :=
  if b < m then 2 * b else b

/-- The backoff counter at the start of failed iteration `n` of `Lock`'s
waiting loop (it starts at `1`); also the number of `runtime.Gosched()`
yields performed during that iteration. -/
def backoffAfter (m : Int) : Nat → Int
  | 0 => 1
  | n + 1 => backoffStep m (backoffAfter m n)

/-!
## Sequential call traces

For the balanced-pairs property we run whole sequences of `Lock`/`Unlock`
calls from a single caller against a manager.
-/

/-- A single manager call in a sequential trace: `Lock(k)` or `Unlock(k)`. -/
inductive Op where
  | lockOp : String → Op
  | unlockOp : String → Op
  deriving Repr, DecidableEq

/-- Run a sequence of `Lock`/`Unlock` calls in order; `none` when some
`Lock` call never returns (its key is already held, and in a sequential
trace nobody can release it). -/
def runOps : List Op → KeyLock → Option KeyLock
  | [], s => some s
  | Op.lockOp k :: rest, s =>
      match lock k s with
      | some s' => runOps rest s'
      | none => none
  | Op.unlockOp k :: rest, s => runOps rest (unlock k s)

/-- `balAux ops held = true`: given that the keys in `held` are currently
held, `ops` is a well-nested sequence of balanced `Lock(k)`/`Unlock(k)`
pairs — every `Lock k` is on a key not currently held, every `Unlock k`
closes a currently held `Lock k`, and at the end no key is held. -/
def balAux : List Op → List String → Bool
  | [], held => held.isEmpty
  | Op.lockOp k :: rest, held =>
      if k ∈ held then false else balAux rest (k :: held)
  | Op.unlockOp k :: rest, held =>
      if k ∈ held then balAux rest (held.erase k) else false

/-- `ops` consists of balanced `Lock(k)`/`Unlock(k)` pairs, starting with
no key held. -/
def balanced (ops : List Op) : Bool := balAux ops []

/-- Abstraction relation for the trace proofs: `held` lists, without
repetition, exactly the keys whose registry cell is locked, and the
counter equals its length. -/
def Inv (s : KeyLock) (held : List String) : Prop :=
  s.count = held.length ∧ held.Nodup ∧
  ∀ k, findCell k s.locks = some true ↔ k ∈ held

end KeyLock

namespace KeyLock

/-! ## Registry lemmas -/

theorem findCell_storeCell_self (k : String) (b : Bool) (l : List (String × Bool)) :
    findCell k (storeCell k b l) = some b := by
  induction l with
  | nil => simp [storeCell, findCell]
  | cons p rest ih =>
    obtain ⟨a, c⟩ := p
    by_cases h : a = k
    · simp [storeCell, h, findCell]
    · simp [storeCell, h, findCell, ih]

theorem findCell_storeCell_ne (k k' : String) (hne : k' ≠ k) (b : Bool)
    (l : List (String × Bool)) :
    findCell k' (storeCell k b l) = findCell k' l := by
  induction l with
  | nil => simp [storeCell, findCell, Ne.symm hne]
  | cons p rest ih =>
    obtain ⟨a, c⟩ := p
    by_cases h : a = k
    · subst h
      simp [storeCell, findCell, Ne.symm hne]
    · by_cases h' : a = k'
      · simp [storeCell, h, findCell, h', hne]
      · simp [storeCell, h, findCell, h', ih]

theorem findCell_append_of_none (k : String) (l l' : List (String × Bool))
    (h : findCell k l = none) : findCell k (l ++ l') = findCell k l' := by
  induction l with
  | nil => simp
  | cons p rest ih =>
    obtain ⟨a, c⟩ := p
    by_cases ha : a = k
    · simp [findCell, ha] at h
    · rw [findCell] at h
      simp only [ha, if_false] at h
      simpa [findCell, ha] using ih h

theorem findCell_append_single_ne (k k' : String) (hne : k' ≠ k) (b : Bool)
    (l : List (String × Bool)) :
    findCell k' (l ++ [(k, b)]) = findCell k' l := by
  induction l with
  | nil => simp [findCell, Ne.symm hne]
  | cons p rest ih =>
    obtain ⟨a, c⟩ := p
    by_cases h : a = k'
    · simp [findCell, h]
    · simp [findCell, h, ih]

theorem storeCell_append_self (k : String) (b c : Bool) (l : List (String × Bool))
    (h : findCell k l = none) :
    storeCell k b (l ++ [(k, c)]) = l ++ [(k, b)] := by
  induction l with
  | nil => simp [storeCell]
  | cons p rest ih =>
    obtain ⟨a, d⟩ := p
    by_cases ha : a = k
    · simp [findCell, ha] at h
    · rw [findCell] at h
      simp only [ha, if_false] at h
      simp [storeCell, ha, ih h]

theorem storeCell_map_fst_of_some (k : String) (b v : Bool) (l : List (String × Bool))
    (h : findCell k l = some v) :
    (storeCell k b l).map Prod.fst = l.map Prod.fst := by
  induction l with
  | nil => simp [findCell] at h
  | cons p rest ih =>
    obtain ⟨a, c⟩ := p
    by_cases ha : a = k
    · simp [storeCell, ha]
    · rw [findCell] at h
      simp only [ha, if_false] at h
      simp [storeCell, ha, ih h]

/-! ## Effect lemmas for the operations -/

theorem tryLock_of_locked (k : String) (s : KeyLock) (h : findCell k s.locks = some true) :
    tryLock k s = (false, s) := by
  simp [tryLock, loadOrStore, casCell, h]

theorem tryLock_of_unlocked (k : String) (s : KeyLock) (h : findCell k s.locks = some false) :
    tryLock k s =
      (true, { s with locks := storeCell k true s.locks, count := s.count + 1 }) := by
  simp [tryLock, loadOrStore, casCell, h]

theorem tryLock_of_absent (k : String) (s : KeyLock) (h : findCell k s.locks = none) :
    tryLock k s =
      (true, { s with locks := s.locks ++ [(k, true)], count := s.count + 1 }) := by
  have h1 : findCell k (s.locks ++ [(k, false)]) = some false := by
    rw [findCell_append_of_none k _ _ h]; simp [findCell]
  simp [tryLock, loadOrStore, casCell, h, h1, storeCell_append_self k true false s.locks h]

theorem lock_eq_tryLock (k : String) (s : KeyLock) :
    lock k s = if (tryLock k s).1 = true then some (tryLock k s).2 else none := by
  rcases hf : findCell k s.locks with - | b
  · have h1 : findCell k (s.locks ++ [(k, false)]) = some false := by
      rw [findCell_append_of_none k _ _ hf]; simp [findCell]
    simp [lock, tryLock, loadOrStore, casCell, hf, h1]
  · cases b
    · simp [lock, tryLock, loadOrStore, casCell, hf]
    · simp [lock, tryLock, loadOrStore, casCell, hf]

theorem tryLock_fst_true_iff (k : String) (s : KeyLock) :
    (tryLock k s).1 = true ↔ findCell k s.locks ≠ some true := by
  rcases hf : findCell k s.locks with - | b
  · simp [tryLock_of_absent k s hf]
  · cases b
    · simp [tryLock_of_unlocked k s hf, hf]
    · simp [tryLock_of_locked k s hf, hf]

theorem tryLock_count_of_true (k : String) (s : KeyLock) (h : (tryLock k s).1 = true) :
    (tryLock k s).2.count = s.count + 1 := by
  rcases hf : findCell k s.locks with - | b
  · simp [tryLock_of_absent k s hf]
  · cases b
    · simp [tryLock_of_unlocked k s hf]
    · rw [tryLock_of_locked k s hf] at h; simp at h

theorem tryLock_findCell_of_true (k : String) (s : KeyLock) (h : (tryLock k s).1 = true)
    (k' : String) :
    findCell k' (tryLock k s).2.locks =
      if k' = k then some true else findCell k' s.locks := by
  rcases hf : findCell k s.locks with - | b
  · rw [tryLock_of_absent k s hf]
    by_cases hkk : k' = k
    · subst hkk
      simp [findCell_append_of_none k' _ _ hf, findCell]
    · simp [hkk, findCell_append_single_ne k k' hkk true s.locks]
  · cases b
    · rw [tryLock_of_unlocked k s hf]
      by_cases hkk : k' = k
      · subst hkk; simp [findCell_storeCell_self]
      · simp [hkk, findCell_storeCell_ne k k' hkk true s.locks]
    · rw [tryLock_of_locked k s hf] at h; simp at h

theorem tryLock_of_false (k : String) (s : KeyLock) (h : (tryLock k s).1 = false) :
    (tryLock k s).2 = s := by
  rcases hf : findCell k s.locks with - | b
  · rw [tryLock_of_absent k s hf] at h; simp at h
  · cases b
    · rw [tryLock_of_unlocked k s hf] at h; simp at h
    · rw [tryLock_of_locked k s hf]

theorem unlock_of_absent (k : String) (s : KeyLock) (h : findCell k s.locks = none) :
    unlock k s = s := by
  simp [unlock, h]

theorem unlock_of_some (k : String) (s : KeyLock) (v : Bool)
    (h : findCell k s.locks = some v) :
    unlock k s = { s with locks := storeCell k false s.locks, count := s.count - 1 } := by
  simp [unlock, h]

theorem unlock_findCell_of_some (k : String) (s : KeyLock) (v : Bool)
    (h : findCell k s.locks = some v) (k' : String) :
    findCell k' (unlock k s).locks =
      if k' = k then some false else findCell k' s.locks := by
  rw [unlock_of_some k s v h]
  by_cases hkk : k' = k
  · subst hkk; simp [findCell_storeCell_self]
  · simp [hkk, findCell_storeCell_ne k k' hkk false s.locks]

end KeyLock

namespace KeyLock

/-! ## Trace lemmas for the balanced-pairs property -/

theorem isPre_cons_elim {α : Type} {p : List α} {x : α} {l : List α} (h : p <+: x :: l) :
    p = [] ∨ ∃ q, p = x :: q ∧ q <+: l := by
  cases p with
  | nil => exact Or.inl rfl
  | cons y q =>
    obtain ⟨t, ht⟩ := h
    injection ht with h1 h2
    exact Or.inr ⟨q, by rw [h1], ⟨t, h2⟩⟩

theorem runOps_balAux (ops : List Op) :
    ∀ (held : List String) (s : KeyLock), balAux ops held = true → Inv s held →
      (∃ s', runOps ops s = some s' ∧ s'.count = 0) ∧
      (∀ p, p <+: ops → ∃ s'', runOps p s = some s'' ∧ 0 ≤ s''.count) := by
  induction ops with
  | nil =>
    intro held s hbal hinv
    have hheld : held = [] := by simpa [balAux, List.isEmpty_iff] using hbal
    subst hheld
    obtain ⟨hcount, -, -⟩ := hinv
    refine ⟨⟨s, rfl, by simpa using hcount⟩, ?_⟩
    intro p hp
    have hp0 : p = [] := List.prefix_nil.mp hp
    subst hp0
    exact ⟨s, rfl, by simp [hcount]⟩
  | cons op rest ih =>
    intro held s hbal hinv
    obtain ⟨hcount, hnodup, hcell⟩ := hinv
    cases op with
    | lockOp k =>
      rw [balAux] at hbal
      by_cases hk : k ∈ held
      · simp [hk] at hbal
      · rw [if_neg hk] at hbal
        have hnotlocked : findCell k s.locks ≠ some true := fun hc => hk ((hcell k).1 hc)
        have htl : (tryLock k s).1 = true := (tryLock_fst_true_iff k s).2 hnotlocked
        have hlock : lock k s = some (tryLock k s).2 := by
          rw [lock_eq_tryLock]; simp [htl]
        have hinv2 : Inv (tryLock k s).2 (k :: held) := by
          refine ⟨?_, List.nodup_cons.2 ⟨hk, hnodup⟩, ?_⟩
          · rw [tryLock_count_of_true k s htl, hcount]
            simp
          · intro k'
            rw [tryLock_findCell_of_true k s htl k']
            by_cases hkk : k' = k
            · simp [hkk]
            · simp [hkk, hcell k']
        obtain ⟨hmain, hpre⟩ := ih (k :: held) (tryLock k s).2 hbal hinv2
        constructor
        · obtain ⟨s', hrun, hc⟩ := hmain
          exact ⟨s', by simp [runOps, hlock, hrun], hc⟩
        · intro p hp
          rcases isPre_cons_elim hp with hp0 | ⟨q, hpq, hq⟩
          · subst hp0
            exact ⟨s, rfl, by simp [hcount]⟩
          · subst hpq
            obtain ⟨s'', hrun, hc⟩ := hpre q hq
            exact ⟨s'', by simp [runOps, hlock, hrun], hc⟩
    | unlockOp k =>
      rw [balAux] at hbal
      by_cases hk : k ∈ held
      · rw [if_pos hk] at hbal
        have hlocked : findCell k s.locks = some true := (hcell k).2 hk
        have hlen : (held.erase k).length = held.length - 1 := List.length_erase_of_mem hk
        have hpos : 0 < held.length := List.length_pos_of_mem hk
        have hinv2 : Inv (unlock k s) (held.erase k) := by
          refine ⟨?_, hnodup.erase k, ?_⟩
          · rw [unlock_of_some k s true hlocked]
            simp only [hlen]
            omega
          · intro k'
            rw [unlock_findCell_of_some k s true hlocked k']
            by_cases hkk : k' = k
            · subst hkk
              simp [hnodup.mem_erase_iff]
            · simp [hkk, hnodup.mem_erase_iff, hcell k']
        obtain ⟨hmain, hpre⟩ := ih (held.erase k) (unlock k s) hbal hinv2
        constructor
        · obtain ⟨s', hrun, hc⟩ := hmain
          exact ⟨s', by simp [runOps, hrun], hc⟩
        · intro p hp
          rcases isPre_cons_elim hp with hp0 | ⟨q, hpq, hq⟩
          · subst hp0
            exact ⟨s, rfl, by simp [hcount]⟩
          · subst hpq
            obtain ⟨s'', hrun, hc⟩ := hpre q hq
            exact ⟨s'', by simp [runOps, hrun], hc⟩
      · simp [hk] at hbal

end KeyLock

namespace KeyLock

/-! ## Claim theorems -/

/-- C1: the code violates this claim.  After `TryLock "k"` succeeds and one
`Unlock "k"` releases it, the cell for `"k"` is found `Unlocked`
(`some false`), yet a second consecutive `Unlock "k"` still decrements the
held-lock counter, driving it from 0 to -1 instead of leaving it
unchanged. -/
theorem keylock_C1_double_unlock_decrements :
    findCell "k" (unlock "k" (tryLock "k" new).2).locks = some false ∧
    (unlock "k" (tryLock "k" new).2).count = 0 ∧
    (unlock "k" (unlock "k" (tryLock "k" new).2)).count = -1 := by decide

/-- C2: the code violates this claim.  The state reached from a fresh
manager by `Lock "a"; Unlock "a"; Unlock "a"` has `Size() = -1` — negative,
and different from the number of cells in the `Locked` state, which is 0. -/
theorem keylock_C2_negative_size :
    lock "a" new = some ((lock "a" new).getD new) ∧
    size (unlock "a" (unlock "a" ((lock "a" new).getD new))) = -1 ∧
    lockedCount (unlock "a" (unlock "a" ((lock "a" new).getD new))) = 0 := by decide

/-- C3: `TryLock` performs a single compare-and-swap on the key's cell: it
returns `true` exactly when the cell (after get-or-create) was `Unlocked`,
in which case the cell becomes `Locked` and the counter is incremented by
one; when it returns `false` the whole state — counter included — is
unchanged. -/
theorem keylock_C3_tryLock_cas (k : String) (s : KeyLock) :
    ((tryLock k s).1 = true ↔ (loadOrStore k s).1 = false) ∧
    ((tryLock k s).1 = true →
      findCell k (tryLock k s).2.locks = some true ∧
      (tryLock k s).2.count = s.count + 1) ∧
    ((tryLock k s).1 = false → (tryLock k s).2 = s) := by
  refine ⟨?_, ?_, tryLock_of_false k s⟩
  · rw [tryLock_fst_true_iff]
    rcases hf : findCell k s.locks with - | b
    · simp [loadOrStore, hf]
    · cases b <;> simp [loadOrStore, hf]
  · intro h
    refine ⟨?_, tryLock_count_of_true k s h⟩
    rw [tryLock_findCell_of_true k s h k]
    simp

/-- C3 witness: on a fresh manager `TryLock "a"` returns `true`, locks the
cell and increments the counter; a second `TryLock "a"` returns `false`
and leaves the state unchanged. -/
theorem keylock_C3_witness :
    (tryLock "a" new).1 = true ∧
    findCell "a" (tryLock "a" new).2.locks = some true ∧
    (tryLock "a" new).2.count = new.count + 1 ∧
    (tryLock "a" (tryLock "a" new).2).1 = false ∧
    (tryLock "a" (tryLock "a" new).2).2 = (tryLock "a" new).2 := by
  refine ⟨by decide, ?_, ?_, by decide, ?_⟩
  · exact ((keylock_C3_tryLock_cas "a" new).2.1 (by decide)).1
  · exact ((keylock_C3_tryLock_cas "a" new).2.1 (by decide)).2
  · exact (keylock_C3_tryLock_cas "a" (tryLock "a" new).2).2.2 (by decide)

/-- C4: every balanced sequence of `Lock(k)`/`Unlock(k)` pairs run from a
fresh manager completes, `Size()` is 0 after all pairs, and after every
prefix of the sequence the counter is non-negative. -/
theorem keylock_C4_balanced_pairs (ops : List Op) (h : balanced ops = true) :
    (∃ s, runOps ops new = some s ∧ size s = 0) ∧
    (∀ p, p <+: ops → ∃ s, runOps p new = some s ∧ 0 ≤ size s) := by
  have hinv : Inv new [] := by
    refine ⟨rfl, List.nodup_nil, ?_⟩
    intro k
    simp [new, findCell]
  simpa [size] using runOps_balAux ops [] new h hinv

/-- C4 witness: the balanced trace Lock a; Lock b; Unlock b; Unlock a ends
with `Size() = 0`. -/
theorem keylock_C4_witness :
    balanced [Op.lockOp "a", Op.lockOp "b", Op.unlockOp "b", Op.unlockOp "a"] = true ∧
    (∃ s, runOps [Op.lockOp "a", Op.lockOp "b", Op.unlockOp "b", Op.unlockOp "a"] new
        = some s ∧ size s = 0) :=
  ⟨by decide, (keylock_C4_balanced_pairs _ (by decide)).1⟩

/-- C5 counterexample: with the positive configuration `maxSpins = 3`, after
two failed iterations the backoff counter is 4, which exceeds `maxSpins` —
the claim's bound `backoff ≤ maxSpins` is false. -/
theorem keylock_C5_cex :
    (0 : Int) < 3 ∧ backoffAfter 3 2 = 4 ∧ ¬(backoffAfter 3 2 ≤ 3) := by decide

/-- C5 (amended): the backoff counter starts at 1; each failed iteration
yields the processor exactly `backoff` times and then doubles `backoff`
only when it is still strictly below `maxSpins`; hence for every positive
`maxSpins` the backoff value stays at least 1 and strictly below
`2 * maxSpins` (it can exceed `maxSpins` itself when `maxSpins` is not a
power of two). -/
theorem keylock_C5_backoff_bounds (m : Int) (h : 0 < m) (n : Nat) :
    1 ≤ backoffAfter m n ∧ backoffAfter m n < 2 * m := by
  induction n with
  | zero =>
    simp only [backoffAfter]
    omega
  | succ n ih =>
    simp only [backoffAfter, backoffStep]
    split <;> omega

/-- C5 witness: under `maxSpins = 3` the backoff value after two failed
iterations is between 1 and 2·3. -/
theorem keylock_C5_witness :
    (0 : Int) < 3 ∧ 1 ≤ backoffAfter 3 2 ∧ backoffAfter 3 2 < 2 * 3 :=
  ⟨by decide, keylock_C5_backoff_bounds 3 (by decide) 2⟩

/-- C6: `Cleanup` retains exactly the registry entries whose cell is
`Locked` and removes exactly those observed `Unlocked`; when no cell is
locked it empties the registry; and it leaves the counter — hence
`Size()` — unchanged. -/
theorem keylock_C6_cleanup_exact (s : KeyLock) :
    size (cleanup s) = size s ∧
    (∀ k b, (k, b) ∈ (cleanup s).locks ↔ ((k, b) ∈ s.locks ∧ b = true)) ∧
    ((∀ p ∈ s.locks, p.2 = false) → (cleanup s).locks = []) := by
  refine ⟨rfl, ?_, ?_⟩
  · intro k b
    simp [cleanup, List.mem_filter]
  · intro h
    simp only [cleanup]
    rw [List.filter_eq_nil_iff]
    intro a ha
    simp [h a ha]

/-- C6 witness: on a registry holding a locked "a" and an unlocked "b",
`Cleanup` keeps "a", drops "b", and `Size()` is unchanged; on a registry
with only unlocked cells it removes everything. -/
theorem keylock_C6_witness :
    size (cleanup { locks := [("a", true), ("b", false)], count := 1, maxSpins := 16 }) =
      size { locks := [("a", true), ("b", false)], count := 1, maxSpins := 16 } ∧
    ("a", true) ∈ (cleanup { locks := [("a", true), ("b", false)], count := 1, maxSpins := 16 }).locks ∧
    ("b", false) ∉ (cleanup { locks := [("a", true), ("b", false)], count := 1, maxSpins := 16 }).locks ∧
    (cleanup { locks := [("c", false)], count := 0, maxSpins := 16 }).locks = [] := by
  refine ⟨(keylock_C6_cleanup_exact _).1, ?_, ?_, ?_⟩
  · exact ((keylock_C6_cleanup_exact _).2.1 "a" true).2 ⟨by decide, rfl⟩
  · intro hm
    simpa using (((keylock_C6_cleanup_exact _).2.1 "b" false).1 hm).2
  · exact (keylock_C6_cleanup_exact _).2.2 (by decide)

/-- C7: `Unlock` of a key that has no registry entry is a no-op: the state
is unchanged, and in particular `Size()` is unchanged. -/
theorem keylock_C7_unlock_absent (k : String) (s : KeyLock)
    (h : findCell k s.locks = none) :
    unlock k s = s ∧ size (unlock k s) = size s := by
  have he := unlock_of_absent k s h
  exact ⟨he, by rw [he]⟩

/-- C7 witness: on a fresh manager, unlocking the never-locked key "ghost"
changes nothing and leaves `Size()` at 0. -/
theorem keylock_C7_witness :
    findCell "ghost" new.locks = none ∧ unlock "ghost" new = new ∧
    size (unlock "ghost" new) = 0 :=
  ⟨by decide, (keylock_C7_unlock_absent "ghost" new (by decide)).1, by decide⟩

/-- C8: round-trip — whenever `TryLock k` returns `true`, immediately
calling `Unlock k` makes the key acquirable again: a subsequent
`TryLock k` returns `true`. -/
theorem keylock_C8_roundtrip (k : String) (s : KeyLock)
    (h : (tryLock k s).1 = true) :
    (tryLock k (unlock k (tryLock k s).2)).1 = true := by
  have h1 : findCell k (tryLock k s).2.locks = some true := by
    rw [tryLock_findCell_of_true k s h k]; simp
  have h2 : findCell k (unlock k (tryLock k s).2).locks = some false := by
    rw [unlock_findCell_of_some k _ true h1 k]; simp
  rw [tryLock_fst_true_iff]
  simp [h2]

/-- C8 witness: on a fresh manager, TryLock "a"; Unlock "a"; TryLock "a"
returns `true` both times. -/
theorem keylock_C8_witness :
    (tryLock "a" new).1 = true ∧
    (tryLock "a" (unlock "a" (tryLock "a" new).2)).1 = true :=
  ⟨by decide, keylock_C8_roundtrip "a" new (by decide)⟩

/-- C9: for every `maxSpins` value installed via `WithMaxSpins` — zero and
negative values included — the backoff counter is at least 1 at every
iteration of `Lock`'s waiting loop, so each trip through the loop performs
at least one processor yield and a non-positive `maxSpins` never causes an
infinite no-op spin. -/
theorem keylock_C9_backoff_at_least_one (s : KeyLock) (m : Int) (n : Nat) :
    1 ≤ backoffAfter (withMaxSpins m s).maxSpins n := by
  induction n with
  | zero => simp [backoffAfter]
  | succ n ih =>
    simp only [backoffAfter, backoffStep] at ih ⊢
    split <;> omega

/-- C10: `Unlock` never removes a registry entry: it preserves the
registry's key list exactly, and after `Lock k` followed by `Unlock k` the
cell for `k` is still present (now `Unlocked`).  Entries are removed only
by `Cleanup`. -/
theorem keylock_C10_unlock_keeps_entries (k : String) (s : KeyLock) :
    (unlock k s).locks.map Prod.fst = s.locks.map Prod.fst ∧
    (∀ s', lock k s = some s' → findCell k (unlock k s').locks = some false) := by
  constructor
  · rcases hf : findCell k s.locks with - | v
    · rw [unlock_of_absent k s hf]
    · rw [unlock_of_some k s v hf]
      exact storeCell_map_fst_of_some k false v s.locks hf
  · intro s' hs'
    rw [lock_eq_tryLock] at hs'
    by_cases h : (tryLock k s).1 = true
    · rw [if_pos h] at hs'
      injection hs' with hs'
      subst hs'
      have h1 : findCell k (tryLock k s).2.locks = some true := by
        rw [tryLock_findCell_of_true k s h k]; simp
      rw [unlock_findCell_of_some k _ true h1 k]; simp
    · rw [if_neg h] at hs'
      exact absurd hs' (by simp)

/-- C10 witness: after Lock "a" then Unlock "a" on a fresh manager, the
registry still has exactly the key "a", with its cell Unlocked. -/
theorem keylock_C10_witness :
    (unlock "a" { locks := [("a", true)], count := 1, maxSpins := 16 }).locks.map Prod.fst =
      [("a", true)].map (Prod.fst) ∧
    findCell "a" (unlock "a" { locks := [("a", true)], count := 1, maxSpins := 16 }).locks =
      some false :=
  ⟨(keylock_C10_unlock_keeps_entries "a" _).1,
   (keylock_C10_unlock_keeps_entries "a" new).2 _ (by decide)⟩

end KeyLock
